import Mathlib

/-!
Shallow embedding of the RaytracingRust path tracer.

Rust `f64` values are modelled as real numbers (`ℝ`); the IEEE square root
becomes `Real.sqrt`.  Each definition below embeds one function of the
source, keeping its name and control flow.  Randomness (`rand()`,
`rand_unit_vector()`) is passed in explicitly as parameters, so that the
stochastic functions become deterministic functions of their random draws.
-/

namespace Raytracing

open Classical

/-- Component model of `nalgebra::Vector3<f64>` (and `Point3<f64>`, whose
operations used by this program coincide with the vector ones). -/
structure Vec3 where
  x : ℝ
  y : ℝ
  z : ℝ

namespace Vec3

def zero : Vec3 := ⟨0, 0, 0⟩

instance : Add Vec3 := ⟨fun v w => ⟨v.x + w.x, v.y + w.y, v.z + w.z⟩⟩

instance : Sub Vec3 := ⟨fun v w => ⟨v.x - w.x, v.y - w.y, v.z - w.z⟩⟩

instance : Neg Vec3 := ⟨fun v => ⟨-v.x, -v.y, -v.z⟩⟩

instance : SMul ℝ Vec3 := ⟨fun r v => ⟨r * v.x, r * v.y, r * v.z⟩⟩

/-- Division of a vector by a scalar, `v / r` in nalgebra. -/
noncomputable instance : HDiv Vec3 ℝ Vec3 := ⟨fun v r => ⟨v.x / r, v.y / r, v.z / r⟩⟩

/-- Dot product `v.dot(&w)`. -/
def dot (v w : Vec3) : ℝ := v.x * w.x + v.y * w.y + v.z * w.z

/-- Squared norm `v.norm_squared()`. -/
def normSq (v : Vec3) : ℝ := v.x * v.x + v.y * v.y + v.z * v.z

/-- Norm `v.norm()`. -/
noncomputable def norm (v : Vec3) : ℝ := Real.sqrt v.normSq

/-- Normalization `v.normalize()` (nalgebra divides by the norm). -/
noncomputable def normalize (v : Vec3) : Vec3 := v / v.norm

/-- Linear interpolation `v.lerp(&w, t)`. -/
def lerp (v w : Vec3) (t : ℝ) : Vec3 := (1 - t) • v + t • w

/-- Embeds `utils::NearZero::is_near_zero` for `Vector3<f64>`: every
component has magnitude below `1e-8`. -/
def isNearZero (v : Vec3) : Prop :=
  |v.x| < 1e-8 ∧ |v.y| < 1e-8 ∧ |v.z| < 1e-8

end Vec3

/-- Embeds `ray::Ray`. -/
structure Ray where
  orig : Vec3
  dir : Vec3

/-- Embeds `Ray::at`: `origin + t * direction`. -/
def Ray.at (r : Ray) (t : ℝ) : Vec3 := r.orig + t • r.dir

/-- Embeds `color::RGB(f64, f64, f64)`. -/
structure RGB where
  r : ℝ
  g : ℝ
  b : ℝ

namespace RGB

/-- Embeds `RGB::default()`, which is `(0.0, 0.0, 0.0)`. -/
def black : RGB := ⟨0, 0, 0⟩

/-- Embeds `RGB::white()`. -/
def white : RGB := ⟨1, 1, 1⟩

/-- Componentwise product, the `Mul` impl of `RGB`. -/
instance : Mul RGB := ⟨fun c d => ⟨c.r * d.r, c.g * d.g, c.b * d.b⟩⟩

/-- Embeds `RGB::from(Vector3<f64>)`. -/
def ofVec (v : Vec3) : RGB := ⟨v.x, v.y, v.z⟩

/-- The vector `vector![color.0, color.1, color.2]` used by the sample
accumulation loops. -/
def toVec (c : RGB) : Vec3 := ⟨c.r, c.g, c.b⟩

end RGB

/-- Embeds the closed set of material variants of `material.rs`. -/
inductive Material where
  | lambertian (albedo : RGB)
  | metal (albedo : RGB) (fuzz : ℝ)
  | dielectric (refractionIndex : ℝ)

/-- Embeds `scene::HitRecord`.  The `front` bool becomes a proposition. -/
structure HitRecord where
  p : Vec3
  normal : Vec3
  t : ℝ
  front : Prop
  material : Material

/-- Embeds `utils::reflect`: `ray - 2·(ray·normal)·normal`. -/
def reflect (ray normal : Vec3) : Vec3 := ray - (2 * ray.dot normal) • normal

/-- Embeds `utils::refract`. -/
noncomputable def refract (uv n : Vec3) (etaiOverEtat : ℝ) : Vec3 :=
  let cosTheta := min ((-uv).dot n) 1
  let rOutPerp := etaiOverEtat • (uv + cosTheta • n)
  let rOutParallel := (-(Real.sqrt |1 - rOutPerp.normSq|)) • n
  rOutPerp + rOutParallel

/-- Embeds `Dielectric::reflectance` (Schlick's approximation). -/
noncomputable def reflectance (cosTheta refrRatio : ℝ) : ℝ :=
  let r0 := ((1 - refrRatio) / (1 + refrRatio)) ^ 2
  r0 + (1 - r0) * (1 - cosTheta) ^ 5

/-- Embeds `<Lambertian as Material>::scatter`.  The random unit vector
drawn by `rand_unit_vector()` is the explicit argument `rv`. -/
noncomputable def lambertianScatter (albedo : RGB) (hit : HitRecord) (rv : Vec3) :
    Option (Ray × RGB) :=
  let d0 := hit.normal + rv
  let direction := if d0.isNearZero then hit.normal else d0
  some (⟨hit.p, direction⟩, albedo)

/-- Embeds `<Metal as Material>::scatter`; `rv` is the drawn random unit
vector. -/
noncomputable def metalScatter (albedo : RGB) (fuzz : ℝ) (ray : Ray) (hit : HitRecord)
    (rv : Vec3) : Option (Ray × RGB) :=
  let reflected := reflect ray.dir.normalize hit.normal
  let scattered : Ray := ⟨hit.p, reflected + fuzz • rv⟩
  if scattered.dir.dot hit.normal > 0 then some (scattered, albedo) else none

/-- Embeds `<Dielectric as Material>::scatter`; `u` is the uniform draw of
`rand()` deciding reflect versus refract. -/
noncomputable def dielectricScatter (refractionIndex : ℝ) (ray : Ray) (hit : HitRecord)
    (u : ℝ) : Option (Ray × RGB) :=
  let eta := if hit.front then 1 / refractionIndex else refractionIndex
  let unitDirection := ray.dir.normalize
  let cosTheta := min ((-unitDirection).dot hit.normal) 1
  let sinTheta := Real.sqrt (1 - cosTheta * cosTheta)
  let canRefract := eta * sinTheta ≤ 1
  let direction :=
    if ¬canRefract ∨ reflectance cosTheta eta > u then reflect unitDirection hit.normal
    else refract unitDirection hit.normal eta
  some (⟨hit.p, direction⟩, RGB.white)

/-- Dispatch of `Material::scatter` over the closed variant set; the random
draws `rv` (unit vector) and `u` (uniform) are explicit. -/
noncomputable def scatter (m : Material) (ray : Ray) (hit : HitRecord) (rv : Vec3)
    (u : ℝ) : Option (Ray × RGB) :=
  match m with
  | .lambertian albedo => lambertianScatter albedo hit rv
  | .metal albedo fuzz => metalScatter albedo fuzz ray hit rv
  | .dielectric ri => dielectricScatter ri ray hit u

/-- Embeds `scene::Sphere`. -/
structure Sphere where
  center : Vec3
  radius : ℝ
  material : Material

/-- Construction of the `HitRecord` from the accepted root, embedding lines
47-57 of `scene.rs` (`hitpoint`, outward normal, front-face test, record). -/
noncomputable def Sphere.mkHit (s : Sphere) (ray : Ray) (root : ℝ) : HitRecord :=
  let hitpoint := ray.at root
  let normal := (hitpoint - s.center) / s.radius
  let outside := ray.dir.dot normal < 0
  { t := root
    p := hitpoint
    normal := if outside then normal else -normal
    front := outside
    material := s.material }

/-- The binding `oc = ray.orig - self.center` of `Sphere::hit`. -/
def Sphere.oc (s : Sphere) (ray : Ray) : Vec3 := ray.orig - s.center

/-- The binding `a = ray.dir.norm_squared()` of `Sphere::hit`. -/
def Sphere.aCoeff (_s : Sphere) (ray : Ray) : ℝ := ray.dir.normSq

/-- The binding `half_b = oc.dot(&ray.dir)` of `Sphere::hit`. -/
def Sphere.half_b (s : Sphere) (ray : Ray) : ℝ := (s.oc ray).dot ray.dir

/-- The binding `c = oc.norm_squared() - radius * radius` of `Sphere::hit`. -/
def Sphere.cCoeff (s : Sphere) (ray : Ray) : ℝ :=
  (s.oc ray).normSq - s.radius * s.radius

/-- The binding `discriminant = half_b * half_b - a * c` of `Sphere::hit`. -/
def Sphere.discrim (s : Sphere) (ray : Ray) : ℝ :=
  s.half_b ray * s.half_b ray - s.aCoeff ray * s.cCoeff ray

/-- The binding `sqrtd = discriminant.sqrt()` of `Sphere::hit`. -/
noncomputable def Sphere.sqrtd (s : Sphere) (ray : Ray) : ℝ :=
  Real.sqrt (s.discrim ray)

/-- The first candidate `root = (-half_b - sqrtd) / a` of `Sphere::hit`. -/
noncomputable def Sphere.root1 (s : Sphere) (ray : Ray) : ℝ :=
  (-s.half_b ray - s.sqrtd ray) / s.aCoeff ray

/-- The fallback candidate `root = (-half_b + sqrtd) / a` of `Sphere::hit`. -/
noncomputable def Sphere.root2 (s : Sphere) (ray : Ray) : ℝ :=
  (-s.half_b ray + s.sqrtd ray) / s.aCoeff ray

/-- Embeds `<Sphere as Hittable>::hit` on the half-open range
`trange.start..trange.end` (written here as the pair `tmin`, `tmax`).
The mutable `root` with its fallback to the second root becomes the nested
conditional; the bindings of the source are the named definitions above. -/
noncomputable def Sphere.hit (s : Sphere) (ray : Ray) (tmin tmax : ℝ) :
    Option HitRecord :=
  if s.discrim ray < 0 then none
  else if s.root1 ray ≤ tmin ∨ s.root1 ray ≥ tmax then
    if s.root2 ray ≤ tmin ∨ s.root2 ray ≥ tmax then none
    else some (s.mkHit ray (s.root2 ray))
  else some (s.mkHit ray (s.root1 ray))

/-- Embeds `scene::Scene`: an ordered list of hittables (the program's only
leaf hittable is `Sphere`). -/
structure Scene where
  hittables : List Sphere

/-- The `for_each` loop of `<Scene as Hittable>::hit`, with the mutable
state `closest_so_far`/`result` passed explicitly. -/
noncomputable def sceneHitLoop (ray : Ray) (tmin : ℝ) :
    List Sphere → ℝ → Option HitRecord → Option HitRecord
  | [], _, result => result
  | s :: rest, closest, result =>
    match s.hit ray tmin closest with
    | some hit => sceneHitLoop ray tmin rest hit.t (some hit)
    | none => sceneHitLoop ray tmin rest closest result

/-- Embeds `<Scene as Hittable>::hit`: `closest_so_far` starts at
`trange.end` and `result` at `None`. -/
noncomputable def Scene.hit (sc : Scene) (ray : Ray) (tmin tmax : ℝ) :
    Option HitRecord :=
  sceneHitLoop ray tmin sc.hittables tmax none

/-- Embeds the `render_height` derivation of `Camera::initialize`
(camera.rs lines 166-169): `(render_width as f64 / aspect_ratio) as usize`,
then raised to `1` when below `1`.  The `as usize` cast truncates toward
zero and saturates at `0`, which is `Int.toNat ∘ Int.floor` for every
quotient that is not in `(-1, 0)`; on nonnegative quotients the two agree
exactly. -/
noncomputable def deriveRenderHeight (renderWidth : ℕ) (aspect : ℝ) : ℕ :=
  let h := (⌊(renderWidth : ℝ) / aspect⌋).toNat
  if h < 1 then 1 else h

/-- Embeds `utils::gamma_correct`. -/
noncomputable def gamma_correct (linear : ℝ) : ℝ := Real.sqrt linear

/-- Embeds `nalgebra::clamp(val, min, max)`: `min` if below, `max` if
above, otherwise the value itself. -/
noncomputable def clampVal (v lo hi : ℝ) : ℝ :=
  if v < lo then lo else if v > hi then hi else v

/-- The quantization `(256.0 * x) as u8` of `RGB::write`.  For the clamped
inputs of `RGB::write` the float-to-integer cast is `Int.toNat ∘ Int.floor`
(the argument always lies in `[0, 255.744]`, so no saturation occurs). -/
noncomputable def quantize (x : ℝ) : ℕ := (⌊256 * x⌋).toNat

/-- Embeds `RGB::write` (color.rs lines 26-38) up to the final text
formatting: the three 8-bit channel values written for a pixel whose
accumulated sample sum is `c`. -/
noncomputable def RGB.write (c : RGB) (samplesPerPixel : ℕ) : ℕ × ℕ × ℕ :=
  let scale := 1 / (samplesPerPixel : ℝ)
  let resultR := gamma_correct (c.r * scale)
  let resultG := gamma_correct (c.g * scale)
  let resultB := gamma_correct (c.b * scale)
  (quantize (clampVal resultR 0 0.999),
   quantize (clampVal resultG 0 0.999),
   quantize (clampVal resultB 0 0.999))

/-- Embeds `utils::INF`, which the source sets to `f64::MAX`. -/
noncomputable def INF : ℝ := 2 ^ 1024 - 2 ^ 971

/-- Embeds `camera::ray_color`.  The per-bounce random draws (a unit
vector for Lambertian/Metal, a uniform number for Dielectric) are supplied
by the stream `rng`, indexed by the remaining depth. -/
noncomputable def ray_color (scene : Scene) (rng : ℕ → Vec3 × ℝ) :
    Ray → ℕ → RGB
  | _, 0 => RGB.black
  | ray, depth + 1 =>
    match Scene.hit scene ray 0.001 INF with
    | some hit =>
      match scatter hit.material ray hit (rng depth).1 (rng depth).2 with
      | some (scattered, attenuation) => attenuation * ray_color scene rng scattered depth
      | none => RGB.black
    | none =>
      let unit := ray.dir.normalize
      let a := 0.5 * (unit.y + 1)
      let blue : Vec3 := ⟨0.5, 0.7, 1.0⟩
      let white : Vec3 := ⟨1.0, 1.0, 1.0⟩
      RGB.ofVec (white.lerp blue a)

/-- Embeds `Camera::render` (camera.rs lines 123-140), after
`initialize`: the row/column/sample loops writing into the `PPM` data
vector, which `PPM::new` fills with `RGB::default()` and indexes at
`i * width + j`.  The jittered camera rays drawn by `sample_ray` and the
per-bounce random draws are supplied explicitly: `rays i j k` is the ray
of sample `k` at pixel `(i, j)` and `rngs i j k` its bounce stream. -/
noncomputable def Camera.render (scene : Scene) (renderWidth renderHeight spp maxBounces : ℕ)
    (rays : ℕ → ℕ → ℕ → Ray) (rngs : ℕ → ℕ → ℕ → ℕ → Vec3 × ℝ) : List RGB :=
  (List.range renderHeight).foldl (fun image i =>
    (List.range renderWidth).foldl (fun image j =>
      let sampleResult := (List.range spp).foldl (fun acc k =>
        acc + (ray_color scene (rngs i j k) (rays i j k) maxBounces).toVec) Vec3.zero
      image.set (i * renderWidth + j) (RGB.ofVec sampleResult)) image)
    (List.replicate (renderWidth * renderHeight) RGB.black)

/-- Embeds `Renderer::render_parallel` (camera.rs lines 27-52) with the
same explicit random supplies: the `flat_map` over rows of the `map` over
columns collects the per-pixel sample sums into the flat `pixels` vector,
which is then copied into the image at `pixels[i * render_width + j]`. -/
noncomputable def Renderer.render_parallel (scene : Scene)
    (renderWidth renderHeight spp maxBounces : ℕ)
    (rays : ℕ → ℕ → ℕ → Ray) (rngs : ℕ → ℕ → ℕ → ℕ → Vec3 × ℝ) : List RGB :=
  let pixels : List RGB :=
    ((List.range renderHeight).map (fun i =>
      (List.range renderWidth).map (fun j =>
        let sampleResult := (List.range spp).foldl (fun acc k =>
          acc + (ray_color scene (rngs i j k) (rays i j k) maxBounces).toVec) Vec3.zero
        RGB.ofVec sampleResult))).flatten
  (List.range renderHeight).foldl (fun image i =>
    (List.range renderWidth).foldl (fun image j =>
      image.set (i * renderWidth + j) (pixels.getD (i * renderWidth + j) RGB.black)) image)
    (List.replicate (renderWidth * renderHeight) RGB.black)

/-- Material used by the concrete witness scenes. -/
def demoMat : Material := .lambertian ⟨0, 0, 0⟩

/-- Unit sphere at the origin, used by the concrete witnesses. -/
def unitSphere : Sphere := ⟨⟨0, 0, 0⟩, 1, demoMat⟩

/-- Unit sphere centred at `(0,0,1)`; it overlaps `unitSphere`. -/
def overlapSphere : Sphere := ⟨⟨0, 0, 1⟩, 1, demoMat⟩

/-- Scene holding the two overlapping unit spheres. -/
def demoScene : Scene := ⟨[unitSphere, overlapSphere]⟩

/-- Ray from `(0,0,4)` pointing down the negative `z` axis; it meets
`overlapSphere` at `t = 2` and `unitSphere` at `t = 3`. -/
def demoRay : Ray := ⟨⟨0, 0, 4⟩, ⟨0, 0, -1⟩⟩

/-- Ray with a zero-length direction, for the degenerate-direction claim. -/
def zeroDirRay : Ray := ⟨⟨5, 0, 0⟩, ⟨0, 0, 0⟩⟩

/-! ## General lemmas about the embedded operations -/

theorem Vec3.add_def (v w : Vec3) : v + w = ⟨v.x + w.x, v.y + w.y, v.z + w.z⟩ := rfl

theorem Vec3.sub_def (v w : Vec3) : v - w = ⟨v.x - w.x, v.y - w.y, v.z - w.z⟩ := rfl

theorem Vec3.neg_def (v : Vec3) : -v = ⟨-v.x, -v.y, -v.z⟩ := rfl

theorem Vec3.smul_def (r : ℝ) (v : Vec3) : r • v = ⟨r * v.x, r * v.y, r * v.z⟩ := rfl

theorem Vec3.div_def (v : Vec3) (r : ℝ) : v / r = ⟨v.x / r, v.y / r, v.z / r⟩ := rfl

theorem Vec3.add_zero' (v : Vec3) : v + Vec3.zero = v := by
  cases v; simp [Vec3.zero, Vec3.add_def]

theorem Vec3.normSq_nonneg (v : Vec3) : 0 ≤ v.normSq := by
  have hx := mul_self_nonneg v.x
  have hy := mul_self_nonneg v.y
  have hz := mul_self_nonneg v.z
  unfold Vec3.normSq
  linarith

theorem Sphere.mkHit_t (s : Sphere) (ray : Ray) (root : ℝ) :
    (s.mkHit ray root).t = root := rfl

theorem Sphere.mkHit_p (s : Sphere) (ray : Ray) (root : ℝ) :
    (s.mkHit ray root).p = ray.at root := rfl

/-- The two candidate roots are ordered: `a ≥ 0` (a squared norm) and
`sqrtd ≥ 0`, and for `a = 0` both quotients are the zero of the real
division-by-zero convention. -/
theorem Sphere.root1_le_root2 (s : Sphere) (ray : Ray) :
    s.root1 ray ≤ s.root2 ray := by
  unfold Sphere.root1 Sphere.root2
  rcases lt_or_eq_of_le (Vec3.normSq_nonneg ray.dir) with ha | ha
  · have hs := Real.sqrt_nonneg (s.discrim ray)
    unfold Sphere.aCoeff
    rw [div_le_div_iff_of_pos_right ha]
    have := Real.sqrt_nonneg (s.discrim ray)
    unfold Sphere.sqrtd
    linarith
  · unfold Sphere.aCoeff
    rw [← ha]
    simp

/-- A record returned by `Sphere::hit` has its parameter strictly inside
the query interval. -/
theorem Sphere.hit_t_bounds (s : Sphere) (ray : Ray) (tmin tmax : ℝ)
    (r : HitRecord) (h : s.hit ray tmin tmax = some r) :
    tmin < r.t ∧ r.t < tmax := by
  unfold Sphere.hit at h
  split at h
  · exact Option.noConfusion h
  · split at h
    · split at h
      · exact Option.noConfusion h
      · next h2 =>
          push_neg at h2
          obtain rfl := Option.some.inj h
          simpa [Sphere.mkHit_t] using h2
    · next h1 =>
        push_neg at h1
        obtain rfl := Option.some.inj h
        simpa [Sphere.mkHit_t] using h1

/-- Narrowing the upper bound of the interval: `Sphere::hit` on
`(tmin, u)` with `u ≤ tmax` succeeds with record `r` exactly when the hit
on `(tmin, tmax)` yields the same record with `r.t < u`.  This is the fact
that lets `Scene::hit` test later members only against the shrunk
interval. -/
theorem Sphere.hit_restrict (s : Sphere) (ray : Ray) (tmin u tmax : ℝ)
    (hu : u ≤ tmax) (r : HitRecord) :
    s.hit ray tmin u = some r ↔ (s.hit ray tmin tmax = some r ∧ r.t < u) := by
  have h12 := s.root1_le_root2 ray
  unfold Sphere.hit
  by_cases hdisc : s.discrim ray < 0
  · simp [hdisc]
  · simp only [if_neg hdisc]
    constructor
    · intro h
      by_cases h1u : s.root1 ray ≤ tmin ∨ s.root1 ray ≥ u
      · rw [if_pos h1u] at h
        by_cases h2u : s.root2 ray ≤ tmin ∨ s.root2 ray ≥ u
        · rw [if_pos h2u] at h; exact Option.noConfusion h
        · rw [if_neg h2u] at h
          obtain rfl := Option.some.inj h
          push_neg at h2u
          have h1t : s.root1 ray ≤ tmin := by
            rcases h1u with h' | h'
            · exact h'
            · exact absurd (lt_of_le_of_lt h12 h2u.2) (not_lt.mpr h')
          have hA : ¬(s.root2 ray ≤ tmin ∨ s.root2 ray ≥ tmax) := by
            push_neg
            exact ⟨h2u.1, lt_of_lt_of_le h2u.2 hu⟩
          rw [if_pos (Or.inl h1t), if_neg hA]
          exact ⟨rfl, by simpa [Sphere.mkHit_t] using h2u.2⟩
      · rw [if_neg h1u] at h
        obtain rfl := Option.some.inj h
        push_neg at h1u
        have hA : ¬(s.root1 ray ≤ tmin ∨ s.root1 ray ≥ tmax) := by
          push_neg
          exact ⟨h1u.1, lt_of_lt_of_le h1u.2 hu⟩
        rw [if_neg hA]
        exact ⟨rfl, by simpa [Sphere.mkHit_t] using h1u.2⟩
    · rintro ⟨h, hru⟩
      by_cases h1t : s.root1 ray ≤ tmin ∨ s.root1 ray ≥ tmax
      · rw [if_pos h1t] at h
        by_cases h2t : s.root2 ray ≤ tmin ∨ s.root2 ray ≥ tmax
        · rw [if_pos h2t] at h; exact Option.noConfusion h
        · rw [if_neg h2t] at h
          obtain rfl := Option.some.inj h
          push_neg at h2t
          have hr2u : s.root2 ray < u := by simpa [Sphere.mkHit_t] using hru
          have h1t' : s.root1 ray ≤ tmin := by
            rcases h1t with h' | h'
            · exact h'
            · exact absurd (lt_of_le_of_lt h12 (lt_of_lt_of_le hr2u hu))
                (not_lt.mpr h')
          have hA2 : ¬(s.root2 ray ≤ tmin ∨ s.root2 ray ≥ u) := by
            push_neg
            exact ⟨h2t.1, hr2u⟩
          rw [if_pos (Or.inl h1t'), if_neg hA2]
      · rw [if_neg h1t] at h
        obtain rfl := Option.some.inj h
        push_neg at h1t
        have hr1u : s.root1 ray < u := by simpa [Sphere.mkHit_t] using hru
        have hA : ¬(s.root1 ray ≤ tmin ∨ s.root1 ray ≥ u) := by
          push_neg
          exact ⟨h1t.1, hr1u⟩
        rw [if_neg hA]

/-- Behaviour of `Sphere::hit` on a zero-length direction: `a = 0`, yet
the discriminant evaluates to `0`, so the guard `discriminant < 0` does
not fire and the division by `a` is reached with `a = 0`.  Under the real
division-by-zero convention both roots are `0`, so a degenerate record
with parameter `0` is produced exactly when `0` lies strictly inside the
interval. -/
theorem Sphere.hit_zero_dir (s : Sphere) (ray : Ray)
    (hdir : ray.dir = ⟨0, 0, 0⟩) (tmin tmax : ℝ) :
    s.hit ray tmin tmax =
      if 0 ≤ tmin ∨ tmax ≤ 0 then none else some (s.mkHit ray 0) := by
  have ha : s.aCoeff ray = 0 := by simp [Sphere.aCoeff, hdir, Vec3.normSq]
  have hb : s.half_b ray = 0 := by simp [Sphere.half_b, hdir, Vec3.dot]
  have hd : s.discrim ray = 0 := by rw [Sphere.discrim, ha, hb]; ring
  have hsq : s.sqrtd ray = 0 := by rw [Sphere.sqrtd, hd, Real.sqrt_zero]
  have h1 : s.root1 ray = 0 := by rw [Sphere.root1, hb, hsq]; norm_num
  have h2 : s.root2 ray = 0 := by rw [Sphere.root2, hb, hsq]; norm_num
  unfold Sphere.hit
  rw [hd, h1, h2]
  by_cases hc : 0 ≤ tmin ∨ tmax ≤ 0
  · simp only [ge_iff_le, if_pos hc, if_neg (lt_irrefl (0 : ℝ))]
  · simp only [ge_iff_le, if_neg hc, if_neg (lt_irrefl (0 : ℝ))]

/-- Running the scan loop with an already-recorded best hit `r₀` gives the
scan's own result when it finds one, and `r₀` otherwise. -/
theorem sceneHitLoop_some_acc (ray : Ray) (tmin : ℝ) (L : List Sphere) :
    ∀ (u : ℝ) (r₀ : HitRecord),
      sceneHitLoop ray tmin L u (some r₀) =
        some ((sceneHitLoop ray tmin L u none).getD r₀) := by
  induction L with
  | nil => intro u r₀; rfl
  | cons s rest ih =>
    intro u r₀
    cases hs : s.hit ray tmin u with
    | some h =>
      simp only [sceneHitLoop, hs]
      rw [ih h.t h]
      simp
    | none =>
      simp only [sceneHitLoop, hs]
      exact ih u r₀

/-- The scan finds nothing exactly when no member hits the interval. -/
theorem sceneHitLoop_none_iff (ray : Ray) (tmin : ℝ) (L : List Sphere) :
    ∀ u : ℝ,
      sceneHitLoop ray tmin L u none = none ↔
        ∀ s ∈ L, s.hit ray tmin u = none := by
  induction L with
  | nil => intro u; simp [sceneHitLoop]
  | cons s rest ih =>
    intro u
    cases hs : s.hit ray tmin u with
    | some h =>
      simp only [sceneHitLoop, hs]
      rw [sceneHitLoop_some_acc]
      constructor
      · intro hcontra
        exact Option.noConfusion hcontra
      · intro hall
        exact absurd (hall s (List.mem_cons_self s rest)) (by simp [hs])
    | none =>
      simp only [sceneHitLoop, hs]
      rw [ih u]
      constructor
      · intro hall s' hm
        rcases List.mem_cons.mp hm with h' | h'
        · rw [h']
          exact hs
        · exact hall s' h'
      · intro hall s' hm
        exact hall s' (List.mem_cons_of_mem _ hm)

/-- When the scan returns a record, that record is a member's hit on the
interval, and its parameter is minimal among all member hits of the
interval. -/
theorem sceneHitLoop_min (ray : Ray) (tmin : ℝ) (L : List Sphere) :
    ∀ (u : ℝ) (r : HitRecord),
      sceneHitLoop ray tmin L u none = some r →
        ((∃ s, s ∈ L ∧ s.hit ray tmin u = some r) ∧
         ∀ s ∈ L, ∀ r', s.hit ray tmin u = some r' → r.t ≤ r'.t) := by
  induction L with
  | nil => intro u r h; exact Option.noConfusion h
  | cons s rest ih =>
    intro u r hloop
    cases hs : s.hit ray tmin u with
    | none =>
      simp only [sceneHitLoop, hs] at hloop
      obtain ⟨⟨s', hm, hs'⟩, hmin⟩ := ih u r hloop
      refine ⟨⟨s', List.mem_cons_of_mem _ hm, hs'⟩, ?_⟩
      intro s'' hm'' r' hr'
      rcases List.mem_cons.mp hm'' with h' | h'
      · rw [h', hs] at hr'
        exact Option.noConfusion hr'
      · exact hmin s'' h' r' hr'
    | some h =>
      simp only [sceneHitLoop, hs] at hloop
      rw [sceneHitLoop_some_acc] at hloop
      have hr : (sceneHitLoop ray tmin rest h.t none).getD h = r :=
        Option.some.inj hloop
      have hbounds := Sphere.hit_t_bounds s ray tmin u h hs
      have hhu : h.t ≤ u := le_of_lt hbounds.2
      cases hrest : sceneHitLoop ray tmin rest h.t none with
      | none =>
        rw [hrest] at hr
        simp only [Option.getD_none] at hr
        subst hr
        refine ⟨⟨s, List.mem_cons_self s rest, hs⟩, ?_⟩
        intro s'' hm'' r' hr'
        rcases List.mem_cons.mp hm'' with h' | h'
        · rw [h', hs] at hr'
          exact le_of_eq (congrArg HitRecord.t (Option.some.inj hr'))
        · by_contra hlt
          push_neg at hlt
          have hnarrow := (Sphere.hit_restrict s'' ray tmin h.t u hhu r').mpr ⟨hr', hlt⟩
          have hnone := (sceneHitLoop_none_iff ray tmin rest h.t).mp hrest s'' h'
          rw [hnone] at hnarrow
          exact Option.noConfusion hnarrow
      | some rr =>
        rw [hrest] at hr
        simp only [Option.getD_some] at hr
        subst hr
        obtain ⟨⟨s', hm', hs'⟩, hmin⟩ := ih h.t rr hrest
        have hs'u := (Sphere.hit_restrict s' ray tmin h.t u hhu rr).mp hs'
        refine ⟨⟨s', List.mem_cons_of_mem _ hm', hs'u.1⟩, ?_⟩
        intro s'' hm'' r' hr'
        rcases List.mem_cons.mp hm'' with h' | h'
        · rw [h', hs] at hr'
          rw [← Option.some.inj hr']
          exact le_of_lt hs'u.2
        · by_cases hlt : r'.t < h.t
          · have hnarrow := (Sphere.hit_restrict s'' ray tmin h.t u hhu r').mpr ⟨hr', hlt⟩
            exact hmin s'' h' r' hnarrow
          · push_neg at hlt
            exact le_trans (le_of_lt hs'u.2) hlt

theorem Vec3.dot_neg (v w : Vec3) : v.dot (-w) = -(v.dot w) := by
  simp only [Vec3.dot, Vec3.neg_def]
  ring

/-- Every record produced by `Sphere::hit` is `mkHit` of some root. -/
theorem Sphere.hit_exists_root (s : Sphere) (ray : Ray) (tmin tmax : ℝ)
    (r : HitRecord) (h : s.hit ray tmin tmax = some r) :
    ∃ root, r = s.mkHit ray root := by
  unfold Sphere.hit at h
  split at h
  · exact Option.noConfusion h
  · split at h
    · split at h
      · exact Option.noConfusion h
      · exact ⟨s.root2 ray, (Option.some.inj h).symm⟩
    · exact ⟨s.root1 ray, (Option.some.inj h).symm⟩

/-- Orientation facts about the record built from a root: the stored
normal opposes the ray, `front` holds exactly when the ray direction and
the outward normal have negative dot product, and a non-front hit stores
the negated outward normal. -/
theorem Sphere.mkHit_props (s : Sphere) (ray : Ray) (root : ℝ) :
    ray.dir.dot (s.mkHit ray root).normal ≤ 0 ∧
    ((s.mkHit ray root).front ↔
      ray.dir.dot (((s.mkHit ray root).p - s.center) / s.radius) < 0) ∧
    (¬ (s.mkHit ray root).front →
      (s.mkHit ray root).normal = -(((s.mkHit ray root).p - s.center) / s.radius)) := by
  have hp : (s.mkHit ray root).p = ray.at root := rfl
  have hfront : (s.mkHit ray root).front =
      (ray.dir.dot ((ray.at root - s.center) / s.radius) < 0) := rfl
  have hnormal : (s.mkHit ray root).normal =
      (if ray.dir.dot ((ray.at root - s.center) / s.radius) < 0 then
        (ray.at root - s.center) / s.radius
      else -((ray.at root - s.center) / s.radius)) := rfl
  rw [hp, hfront, hnormal]
  by_cases hout : ray.dir.dot ((ray.at root - s.center) / s.radius) < 0
  · rw [if_pos hout]
    exact ⟨le_of_lt hout, Iff.rfl, fun hc => absurd hout hc⟩
  · rw [if_neg hout]
    push_neg at hout
    refine ⟨?_, Iff.rfl, fun _ => rfl⟩
    rw [Vec3.dot_neg]
    linarith

/-! ## Concrete evaluations used by the witnesses -/

theorem unitSphere_discrim : unitSphere.discrim demoRay = 1 := by
  norm_num [Sphere.discrim, Sphere.half_b, Sphere.aCoeff, Sphere.cCoeff,
    Sphere.oc, Vec3.dot, Vec3.normSq, Vec3.sub_def, unitSphere, demoRay]

theorem unitSphere_root1 : unitSphere.root1 demoRay = 3 := by
  rw [Sphere.root1, Sphere.sqrtd, unitSphere_discrim, Real.sqrt_one]
  norm_num [Sphere.half_b, Sphere.aCoeff, Sphere.oc, Vec3.dot, Vec3.normSq,
    Vec3.sub_def, unitSphere, demoRay]

theorem overlapSphere_discrim : overlapSphere.discrim demoRay = 1 := by
  norm_num [Sphere.discrim, Sphere.half_b, Sphere.aCoeff, Sphere.cCoeff,
    Sphere.oc, Vec3.dot, Vec3.normSq, Vec3.sub_def, overlapSphere, demoRay]

theorem overlapSphere_root1 : overlapSphere.root1 demoRay = 2 := by
  rw [Sphere.root1, Sphere.sqrtd, overlapSphere_discrim, Real.sqrt_one]
  norm_num [Sphere.half_b, Sphere.aCoeff, Sphere.oc, Vec3.dot, Vec3.normSq,
    Vec3.sub_def, overlapSphere, demoRay]

theorem unitSphere_hit_eval :
    Sphere.hit unitSphere demoRay 0.001 100 = some (unitSphere.mkHit demoRay 3) := by
  unfold Sphere.hit
  rw [unitSphere_discrim, unitSphere_root1]
  norm_num

theorem overlapSphere_hit_eval :
    Sphere.hit overlapSphere demoRay 0.001 100 = some (overlapSphere.mkHit demoRay 2) := by
  unfold Sphere.hit
  rw [overlapSphere_discrim, overlapSphere_root1]
  norm_num

theorem overlapSphere_hit_eval_narrow :
    Sphere.hit overlapSphere demoRay 0.001 3 = some (overlapSphere.mkHit demoRay 2) := by
  unfold Sphere.hit
  rw [overlapSphere_discrim, overlapSphere_root1]
  norm_num

theorem demoScene_hit_eval :
    Scene.hit demoScene demoRay 0.001 100 = some (overlapSphere.mkHit demoRay 2) := by
  show sceneHitLoop demoRay 0.001 [unitSphere, overlapSphere] 100 none = _
  simp only [sceneHitLoop, unitSphere_hit_eval, Sphere.mkHit_t,
    overlapSphere_hit_eval_narrow]

/-! ## List helpers for the render loops -/

theorem foldl_congr_mem {α β : Type} (l : List β) (f g : α → β → α) (z : α)
    (h : ∀ a b, b ∈ l → f a b = g a b) : l.foldl f z = l.foldl g z := by
  induction l generalizing z with
  | nil => rfl
  | cons b rest ih =>
    rw [List.foldl_cons, List.foldl_cons, h z b (List.mem_cons_self b rest)]
    exact ih _ (fun a b' hb => h a b' (List.mem_cons_of_mem _ hb))

theorem foldl_fixed {α β : Type} (f : α → β → α) (z : α)
    (h : ∀ b, f z b = z) : ∀ l : List β, l.foldl f z = z := by
  intro l
  induction l with
  | nil => rfl
  | cons b rest ih =>
    rw [List.foldl_cons, h b]
    exact ih

theorem set_replicate {α : Type} (a : α) :
    ∀ (n i : ℕ), (List.replicate n a).set i a = List.replicate n a := by
  intro n
  induction n with
  | zero => intro i; rfl
  | succ m ih =>
    intro i
    cases i with
    | zero => rfl
    | succ j =>
      rw [List.replicate_succ]
      show a :: (List.replicate m a).set j a = _
      rw [ih j]

theorem flatten_getD {α : Type} (d : α) (W : ℕ) :
    ∀ L : List (List α), (∀ l ∈ L, l.length = W) →
      ∀ i j, i < L.length → j < W →
        L.flatten.getD (i * W + j) d = (L.getD i []).getD j d := by
  intro L
  induction L with
  | nil =>
    intro _ i j hi _
    exact absurd hi (Nat.not_lt_zero i)
  | cons l rest ih =>
    intro hW i j hi hj
    rw [List.flatten_cons]
    have hl : l.length = W := hW l (List.mem_cons_self _ _)
    cases i with
    | zero =>
      have hz : 0 * W + j = j := by ring
      rw [hz, List.getD_append _ _ _ _ (by rw [hl]; exact hj)]
      rfl
    | succ m =>
      have hidx : (m + 1) * W + j = l.length + (m * W + j) := by rw [hl]; ring
      rw [hidx, List.getD_append_right _ _ _ _ (Nat.le_add_right _ _)]
      rw [Nat.add_sub_cancel_left]
      exact ih (fun l' hl' => hW l' (List.mem_cons_of_mem _ hl')) m j
        (Nat.lt_of_succ_lt_succ hi) hj

/-! ## Claim theorems -/

/-- C1: for every ray, interval and scene, `Scene::hit` returns none
exactly when no member hits the interval, and any record it returns is a
member's hit on the interval whose parameter `t` is minimal among all
member hits of the interval (the linear scan with the shrinking upper
bound `closest_so_far` realizes this). -/
theorem scene_hit_returns_nearest (sc : Scene) (ray : Ray) (tmin tmax : ℝ) :
    (Scene.hit sc ray tmin tmax = none ↔
      ∀ s ∈ sc.hittables, Sphere.hit s ray tmin tmax = none) ∧
    ∀ r, Scene.hit sc ray tmin tmax = some r →
      ((∃ s, s ∈ sc.hittables ∧ Sphere.hit s ray tmin tmax = some r) ∧
       ∀ s ∈ sc.hittables, ∀ r', Sphere.hit s ray tmin tmax = some r' → r.t ≤ r'.t) :=
  ⟨sceneHitLoop_none_iff ray tmin sc.hittables tmax,
   fun r h => sceneHitLoop_min ray tmin sc.hittables tmax r h⟩

/-- C1 witness: on the scene of two overlapping spheres along `demoRay`,
`Scene::hit` returns the intersection at `t = 2`, which does not exceed
the other sphere's intersection parameter `3`. -/
theorem scene_hit_returns_nearest_witness :
    ((Scene.hit demoScene demoRay 0.001 100).map HitRecord.t).getD 0 = 2 ∧
    ((Scene.hit demoScene demoRay 0.001 100).map HitRecord.t).getD 0 ≤
      ((Sphere.hit unitSphere demoRay 0.001 100).map HitRecord.t).getD 0 := by
  have hmin := (scene_hit_returns_nearest demoScene demoRay 0.001 100).2
    (overlapSphere.mkHit demoRay 2) demoScene_hit_eval
  have h2 := hmin.2 unitSphere (by simp [demoScene])
    (unitSphere.mkHit demoRay 3) unitSphere_hit_eval
  rw [demoScene_hit_eval, unitSphere_hit_eval]
  exact ⟨by simp [Sphere.mkHit_t], by simpa [Sphere.mkHit_t] using h2⟩

/-- C2: every record returned by `Sphere::hit` has a normal whose dot
product with the incoming direction is nonpositive, its `front` flag holds
exactly when the direction opposes the outward normal
`(hitpoint - center) / radius`, and a non-front record stores the negated
outward normal; the nonpositivity carries over to every record returned
by `Scene::hit`. -/
theorem hit_normal_opposes_ray :
    (∀ (s : Sphere) (ray : Ray) (tmin tmax : ℝ) (r : HitRecord),
      Sphere.hit s ray tmin tmax = some r →
        ray.dir.dot r.normal ≤ 0 ∧
        (r.front ↔ ray.dir.dot ((r.p - s.center) / s.radius) < 0) ∧
        (¬ r.front → r.normal = -((r.p - s.center) / s.radius))) ∧
    ∀ (sc : Scene) (ray : Ray) (tmin tmax : ℝ) (r : HitRecord),
      Scene.hit sc ray tmin tmax = some r → ray.dir.dot r.normal ≤ 0 := by
  have hsphere : ∀ (s : Sphere) (ray : Ray) (tmin tmax : ℝ) (r : HitRecord),
      Sphere.hit s ray tmin tmax = some r →
        ray.dir.dot r.normal ≤ 0 ∧
        (r.front ↔ ray.dir.dot ((r.p - s.center) / s.radius) < 0) ∧
        (¬ r.front → r.normal = -((r.p - s.center) / s.radius)) := by
    intro s ray tmin tmax r h
    obtain ⟨root, rfl⟩ := Sphere.hit_exists_root s ray tmin tmax r h
    exact Sphere.mkHit_props s ray root
  refine ⟨hsphere, ?_⟩
  intro sc ray tmin tmax r h
  obtain ⟨⟨s, _, hs⟩, _⟩ := (scene_hit_returns_nearest sc ray tmin tmax).2 r h
  exact (hsphere s ray tmin tmax r hs).1

/-- C2 witness: the concrete hit of `unitSphere` by `demoRay` satisfies
the orientation property. -/
theorem hit_normal_opposes_ray_witness :
    Sphere.hit unitSphere demoRay 0.001 100 = some (unitSphere.mkHit demoRay 3) ∧
    demoRay.dir.dot (unitSphere.mkHit demoRay 3).normal ≤ 0 :=
  ⟨unitSphere_hit_eval,
   (hit_normal_opposes_ray.1 unitSphere demoRay 0.001 100
     (unitSphere.mkHit demoRay 3) unitSphere_hit_eval).1⟩

/-- C4: for a ray whose direction has nonzero squared norm, `Sphere::hit`
follows the quadratic-root selection of the spec: the named quantities are
the spec's formulas, a negative discriminant yields no hit, otherwise the
root `(-half_b - √d)/a` is returned when strictly inside the open
interval, else `(-half_b + √d)/a` when strictly inside, else no hit; the
returned `t` is the selected root. -/
theorem sphere_hit_root_selection (s : Sphere) (ray : Ray) (tmin tmax : ℝ)
    (_ha : ray.dir.normSq ≠ 0) :
    s.discrim ray =
      ((ray.orig - s.center).dot ray.dir) * ((ray.orig - s.center).dot ray.dir) -
        ray.dir.normSq * ((ray.orig - s.center).normSq - s.radius * s.radius) ∧
    s.root1 ray =
      (-((ray.orig - s.center).dot ray.dir) - Real.sqrt (s.discrim ray)) / ray.dir.normSq ∧
    s.root2 ray =
      (-((ray.orig - s.center).dot ray.dir) + Real.sqrt (s.discrim ray)) / ray.dir.normSq ∧
    (s.discrim ray < 0 → s.hit ray tmin tmax = none) ∧
    (0 ≤ s.discrim ray → tmin < s.root1 ray → s.root1 ray < tmax →
      ∃ rec, s.hit ray tmin tmax = some rec ∧ rec.t = s.root1 ray) ∧
    (0 ≤ s.discrim ray → (s.root1 ray ≤ tmin ∨ tmax ≤ s.root1 ray) →
      tmin < s.root2 ray → s.root2 ray < tmax →
      ∃ rec, s.hit ray tmin tmax = some rec ∧ rec.t = s.root2 ray) ∧
    (0 ≤ s.discrim ray → (s.root1 ray ≤ tmin ∨ tmax ≤ s.root1 ray) →
      (s.root2 ray ≤ tmin ∨ tmax ≤ s.root2 ray) →
      s.hit ray tmin tmax = none) := by
  refine ⟨rfl, rfl, rfl, ?_, ?_, ?_, ?_⟩
  · intro hd
    unfold Sphere.hit
    rw [if_pos hd]
  · intro hd h1 h2
    unfold Sphere.hit
    rw [if_neg (not_lt.mpr hd)]
    rw [if_neg (by push_neg; exact ⟨h1, h2⟩)]
    exact ⟨s.mkHit ray (s.root1 ray), rfl, Sphere.mkHit_t s ray _⟩
  · intro hd h1 h2 h3
    unfold Sphere.hit
    rw [if_neg (not_lt.mpr hd)]
    rw [if_pos (by simpa [ge_iff_le] using h1)]
    rw [if_neg (by push_neg; exact ⟨h2, h3⟩)]
    exact ⟨s.mkHit ray (s.root2 ray), rfl, Sphere.mkHit_t s ray _⟩
  · intro hd h1 h2
    unfold Sphere.hit
    rw [if_neg (not_lt.mpr hd)]
    rw [if_pos (by simpa [ge_iff_le] using h1)]
    rw [if_pos (by simpa [ge_iff_le] using h2)]

/-- C4 witness: `demoRay` against `unitSphere` has `a = 1`, discriminant
`1`, first root `3` inside `(0.001, 100)`, and the hit's `t` is `3`. -/
theorem sphere_hit_root_selection_witness :
    ((Sphere.hit unitSphere demoRay 0.001 100).map HitRecord.t).getD 0 = 3 := by
  obtain ⟨rec, hrec, ht⟩ :=
    (sphere_hit_root_selection unitSphere demoRay 0.001 100
      (by norm_num [Vec3.normSq, demoRay])).2.2.2.2.1
      (by rw [unitSphere_discrim]; norm_num)
      (by rw [unitSphere_root1]; norm_num)
      (by rw [unitSphere_root1]; norm_num)
  rw [hrec]
  simp [ht, unitSphere_root1]

/-- C3 counterexample: the code has no `a == 0` guard.  For the
zero-direction ray the discriminant evaluates to `0`, the division by
`a = 0` is reached, and on the interval `(-1, 1)` a hit IS returned, so
`Sphere::hit` does not return no-hit for every zero-length direction. -/
theorem sphere_hit_zero_dir_counterexample :
    Sphere.hit unitSphere zeroDirRay (-1) 1 ≠ none := by
  rw [Sphere.hit_zero_dir unitSphere zeroDirRay rfl]
  norm_num
  exact fun h => Option.noConfusion h

/-- C3 (amended): the code has no `a == 0` guard.  With a zero-length
direction `a = 0` while the discriminant evaluates to `0`, so the
`discriminant < 0` exit is not taken and the division by `a` is reached
with `a = 0`; whenever the interval strictly contains `0`, a hit record is
returned rather than no-hit.  (In the source the unguarded `0.0/0.0` root
is NaN and fails both rejection comparisons, so the source returns a hit
record for every interval; the real-valued model agrees on the
hit-returned conclusion stated here, for intervals strictly containing
`0`.) -/
theorem sphere_hit_zero_direction (s : Sphere) (ray : Ray)
    (hdir : ray.dir = ⟨0, 0, 0⟩) (tmin tmax : ℝ)
    (htmin : tmin < 0) (htmax : 0 < tmax) :
    Sphere.aCoeff s ray = 0 ∧
    ¬ (s.discrim ray < 0) ∧
    s.hit ray tmin tmax ≠ none := by
  have ha : s.aCoeff ray = 0 := by simp [Sphere.aCoeff, hdir, Vec3.normSq]
  have hb : s.half_b ray = 0 := by simp [Sphere.half_b, hdir, Vec3.dot]
  have hd : s.discrim ray = 0 := by rw [Sphere.discrim, ha, hb]; ring
  refine ⟨ha, by rw [hd]; exact lt_irrefl 0, ?_⟩
  rw [Sphere.hit_zero_dir s ray hdir]
  rw [if_neg (by push_neg; exact ⟨htmin, htmax⟩)]
  exact fun h => Option.noConfusion h

/-- C3 witness: a concrete zero-direction ray on an interval strictly
containing `0` has `a = 0`, a non-negative discriminant, and still
produces a hit record. -/
theorem sphere_hit_zero_direction_witness :
    Sphere.hit unitSphere zeroDirRay (-2) 3 ≠ none :=
  (sphere_hit_zero_direction unitSphere zeroDirRay rfl (-2) 3
    (by norm_num) (by norm_num)).2.2

/-- C5: the radiance estimator at depth `0` returns black for every ray
and scene, and consequently a render with `max_bounces = 0` produces the
all-black image for every scene and any random draws. -/
theorem ray_color_depth_zero_black :
    (∀ (scene : Scene) (rng : ℕ → Vec3 × ℝ) (ray : Ray),
      ray_color scene rng ray 0 = RGB.black) ∧
    ∀ (scene : Scene) (renderWidth renderHeight spp : ℕ)
      (rays : ℕ → ℕ → ℕ → Ray) (rngs : ℕ → ℕ → ℕ → ℕ → Vec3 × ℝ),
      Camera.render scene renderWidth renderHeight spp 0 rays rngs =
        List.replicate (renderWidth * renderHeight) RGB.black := by
  refine ⟨fun _ _ _ => rfl, ?_⟩
  intro scene W H spp rays rngs
  unfold Camera.render
  have hsample : ∀ i j, (List.range spp).foldl
      (fun acc k => acc + (ray_color scene (rngs i j k) (rays i j k) 0).toVec)
      Vec3.zero = Vec3.zero := by
    intro i j
    apply foldl_fixed
    intro k
    exact Vec3.add_zero' Vec3.zero
  have hofv : RGB.ofVec Vec3.zero = RGB.black := rfl
  simp only [hsample, hofv]
  apply foldl_fixed
  intro i
  apply foldl_fixed
  intro j
  exact set_replicate RGB.black (W * H) (i * W + j)

/-- C6: the dielectric material always scatters, with attenuation exactly
`(1, 1, 1)`, for every refraction index, hit, incoming ray and random
draw. -/
theorem dielectric_always_scatters_white (ri : ℝ) (ray : Ray)
    (hit : HitRecord) (rv : Vec3) (u : ℝ) :
    ∃ scattered : Ray,
      scatter (.dielectric ri) ray hit rv u = some (scattered, ⟨1, 1, 1⟩) :=
  ⟨_, rfl⟩

/-- C7: the Lambertian material never returns none: it scatters from the
hit point with direction `hit.normal + rv`, falling back to `hit.normal`
when that sum is near zero in every component, with attenuation equal to
the albedo. -/
theorem lambertian_always_scatters (albedo : RGB) (ray : Ray)
    (hit : HitRecord) (rv : Vec3) (u : ℝ) :
    scatter (.lambertian albedo) ray hit rv u =
      some (⟨hit.p, if (hit.normal + rv).isNearZero then hit.normal
                    else hit.normal + rv⟩, albedo) := rfl

/-- C8 counterexample: the cast `(render_width as f64 / aspect_ratio) as
usize` truncates, so for width `7` and aspect ratio `2` the code derives
height `3` while the claimed `max(1, round(width/aspect))` is `4`. -/
theorem derive_render_height_counterexample :
    deriveRenderHeight 7 2 = 3 ∧ max 1 (round ((7 : ℝ) / 2)) = 4 := by
  constructor
  · have hc : ((7 : ℕ) : ℝ) / 2 = (7 : ℝ) / 2 := by norm_num
    have hf : ⌊(7 : ℝ) / 2⌋ = 3 := by norm_num
    unfold deriveRenderHeight
    rw [hc, hf]
    decide
  · rw [round_eq]
    norm_num

/-- C8 (amended): the derived render height is
`max(1, floor(render_width / aspect_ratio))` — the float-to-integer cast
truncates toward zero (equivalently floors the nonnegative quotient); it
does not round to nearest. -/
theorem derive_render_height_floor (renderWidth : ℕ) (aspect : ℝ) :
    deriveRenderHeight renderWidth aspect =
      max 1 (⌊(renderWidth : ℝ) / aspect⌋.toNat) := by
  show (if (⌊(renderWidth : ℝ) / aspect⌋.toNat) < 1 then 1
        else ⌊(renderWidth : ℝ) / aspect⌋.toNat) = _
  split
  · next h => omega
  · next h => omega

/-- C9: pixel finalization averages by `samples_per_pixel`, applies the
square-root gamma correction, clamps to `[0, 0.999]` and quantizes by
`floor(256 · clamped)`; a sum of `spp · (1,1,1)` finalizes to
`(255, 255, 255)` for every positive `spp`. -/
theorem rgb_write_finalization (c : RGB) (spp : ℕ) :
    RGB.write c spp =
      ((⌊256 * clampVal (Real.sqrt (c.r / (spp : ℝ))) 0 0.999⌋).toNat,
       (⌊256 * clampVal (Real.sqrt (c.g / (spp : ℝ))) 0 0.999⌋).toNat,
       (⌊256 * clampVal (Real.sqrt (c.b / (spp : ℝ))) 0 0.999⌋).toNat) ∧
    (0 < spp →
      RGB.write ⟨(spp : ℝ), (spp : ℝ), (spp : ℝ)⟩ spp = (255, 255, 255)) := by
  constructor
  · unfold RGB.write gamma_correct quantize
    simp only [mul_one_div]
  · intro hs
    have hspp : ((spp : ℝ)) ≠ 0 := Nat.cast_ne_zero.mpr (Nat.pos_iff_ne_zero.mp hs)
    simp only [RGB.write, gamma_correct, quantize, clampVal]
    have h1 : (spp : ℝ) * (1 / (spp : ℝ)) = 1 := by field_simp
    rw [h1, Real.sqrt_one]
    rw [if_neg (by norm_num), if_pos (by norm_num)]
    norm_num
    decide

/-- C9 witness: a concrete all-white accumulation with four samples
finalizes to `(255, 255, 255)`. -/
theorem rgb_write_finalization_witness :
    RGB.write ⟨4, 4, 4⟩ 4 = (255, 255, 255) := by
  have h := (rgb_write_finalization ⟨4, 4, 4⟩ 4).2 (by norm_num)
  simpa using h

/-- C10: with identical per-sample random draws, the parallel renderer
produces exactly the image of the sequential renderer: the `pixels` vector
collected by the `flat_map` holds each pixel's sample sum at row-major
position `i·render_width + j`, so the copy loop writes the same value the
sequential loop writes. -/
theorem render_parallel_refines_render (scene : Scene)
    (renderWidth renderHeight spp maxBounces : ℕ)
    (rays : ℕ → ℕ → ℕ → Ray) (rngs : ℕ → ℕ → ℕ → ℕ → Vec3 × ℝ) :
    Renderer.render_parallel scene renderWidth renderHeight spp maxBounces rays rngs =
      Camera.render scene renderWidth renderHeight spp maxBounces rays rngs := by
  simp only [Renderer.render_parallel, Camera.render]
  apply foldl_congr_mem
  intro img i hi
  apply foldl_congr_mem
  intro img' j hj
  have hi' : i < renderHeight := List.mem_range.mp hi
  have hj' : j < renderWidth := List.mem_range.mp hj
  congr 1
  rw [flatten_getD RGB.black renderWidth _ ?hlen i j ?hi hj']
  case hlen =>
    intro l hl
    obtain ⟨i', _, rfl⟩ := List.mem_map.mp hl
    rw [List.length_map, List.length_range]
  case hi =>
    rw [List.length_map, List.length_range]
    exact hi'
  have hrow : ((List.range renderHeight).map (fun i =>
      (List.range renderWidth).map (fun j =>
        RGB.ofVec ((List.range spp).foldl (fun acc k =>
          acc + (ray_color scene (rngs i j k) (rays i j k) maxBounces).toVec)
          Vec3.zero)))).getD i [] =
      (List.range renderWidth).map (fun j =>
        RGB.ofVec ((List.range spp).foldl (fun acc k =>
          acc + (ray_color scene (rngs i j k) (rays i j k) maxBounces).toVec)
          Vec3.zero)) := by
    rw [List.getD_eq_getElem?_getD, List.getElem?_map, List.getElem?_range hi']
    rfl
  rw [hrow]
  rw [List.getD_eq_getElem?_getD, List.getElem?_map, List.getElem?_range hj']
  rfl

end Raytracing
